import Mathlib

/-!
Verification development for a neuroevolution repository: a real-valued
genetic algorithm (`src/ga.py`), a feed-forward policy network with a
genome codec (`src/network.py`), and an episode-based fitness evaluator
(`src/env_runner.py`).

The Python code is shallowly embedded: numpy arrays become `List ℚ`
(rows) and `List (List ℚ)` (2-D arrays), machine floats become `ℚ`, and
every draw from the numpy random generator is threaded in explicitly as
an oracle (a "tape"): contender index draws for tournament selection,
uniform draws for the crossover coin and masks, uniform draws and
Gaussian draws for mutation.  Fallible operations return `Except`:
Python `IndexError` on list indexing and numpy `ValueError` on
shape-mismatched `vstack` are the two failure points `step` can actually
reach, and the error taxonomy names from the design document
(`InvalidConfig`, `InvalidFitnessLength`, `ShapeMismatch`, `NotDecoded`)
are carried as constructors so that claims about them can be stated.

In-place mutation (`genome[mask] += noise[mask]`) is modelled twice:
once value-level (`GeneticAlgorithm.mutate`), and once against an
explicit array store (`GeneticAlgorithm.stepStore`) in which numpy
arrays are numbered heap cells, so that the frame claim "`step` does not
mutate its inputs" is about real writes, not vacuous purity.
-/

namespace RLGym

/-- Index-aware elementwise mutation: models `genome[mask] += noise[mask]`
where `mask` and `noise` are the per-gene random draws, starting at gene
index `i`. -/
def applyMask (mask : Nat → Bool) (noise : Nat → ℚ) : Nat → List ℚ → List ℚ
  | _, [] => []
  | i, x :: xs => (if mask i then x + noise i else x) :: applyMask mask noise (i + 1) xs

/-- Elementwise selection between two equally long vectors: models
`np.where(mask, p1, p2)` starting at index `i`. -/
def whereMask (mask : Nat → Bool) : Nat → List ℚ → List ℚ → List ℚ
  | _, [], _ => []
  | _, _ :: _, [] => []
  | i, x :: xs, y :: ys => (if mask i then x else y) :: whereMask mask (i + 1) xs ys

/-- Index of the first maximal element of a list: models `np.argmax`
(ties resolved to the first occurrence).  On the empty list numpy raises,
so callers guard; the value returned here for `[]` is never relied on. -/
def argmaxIdx : List ℚ → Nat
  | [] => 0
  | [_] => 0
  | x :: y :: rest =>
    if x < (y :: rest).getD (argmaxIdx (y :: rest)) 0 then argmaxIdx (y :: rest) + 1 else 0

/-- The comparison key used to model `np.argsort fitnesses`: indices are
ordered by fitness value, ties by index.  (numpy's default sort is not
stable; the tie order among equal fitness values is arbitrary there, and
this model fixes one deterministic choice.) -/
def keyRel (f : List ℚ) (i j : Nat) : Prop :=
  f.getD i 0 < f.getD j 0 ∨ (f.getD i 0 = f.getD j 0 ∧ i ≤ j)

instance (f : List ℚ) : DecidableRel (keyRel f) := fun i j => by
  unfold keyRel; exact inferInstance

instance (f : List ℚ) : IsTotal Nat (keyRel f) := by
  constructor
  intro i j
  rcases lt_trichotomy (f.getD i 0) (f.getD j 0) with h | h | h
  · exact Or.inl (Or.inl h)
  · rcases Nat.le_total i j with hij | hij
    · exact Or.inl (Or.inr ⟨h, hij⟩)
    · exact Or.inr (Or.inr ⟨h.symm, hij⟩)
  · exact Or.inr (Or.inl h)

instance (f : List ℚ) : IsTrans Nat (keyRel f) := by
  constructor
  intro a b c hab hbc
  rcases hab with hab | ⟨hab, hab'⟩
  · rcases hbc with hbc | ⟨hbc, _⟩
    · exact Or.inl (hab.trans hbc)
    · exact Or.inl (hbc ▸ hab)
  · rcases hbc with hbc | ⟨hbc, hbc'⟩
    · exact Or.inl (hab ▸ hbc)
    · exact Or.inr ⟨hab.trans hbc, hab'.trans hbc'⟩

/-- Models `np.argsort(fitnesses)`: the list of indices `0 .. len-1`
arranged into ascending fitness order. -/
def argsortAsc (f : List ℚ) : List Nat :=
  List.insertionSort (keyRel f) (List.range f.length)

/-- Errors observable from the genetic algorithm.  `indexError` is a
Python `IndexError` (list index out of range), `shapeError` a numpy
`ValueError` (shape-mismatched `vstack`).  `invalidConfig` and
`invalidFitnessLength` are the error classes named by the design
document; the source never raises either, and the constructors exist so
that the corresponding claims can be stated and settled. -/
inductive GAError
  | invalidConfig
  | invalidFitnessLength
  | indexError
  | shapeError
  deriving DecidableEq

/-- Hyperparameter state of `GeneticAlgorithm` (`src/ga.py`), exactly the
fields stored by `__init__`. -/
structure GeneticAlgorithm where
  pop_size : Nat
  genome_length : Nat
  crossover_rate : ℚ
  mutation_rate : ℚ
  mutation_sigma : ℚ
  tournament_size : Nat
  elitism : Bool
  elitism_frac : ℚ
  deriving DecidableEq

namespace GeneticAlgorithm

/-- Models `GeneticAlgorithm.__init__`: the constructor stores every
hyperparameter unexamined and performs no validation whatsoever, so it
always succeeds.  The `Except` codomain exists to make the design
document's claim — rejection of bad hyperparameters with
`InvalidConfig` — expressible; the body, like the source, never
produces an error. -/
def init (pop_size genome_length : Nat) (crossover_rate mutation_rate mutation_sigma : ℚ)
    (tournament_size : Nat) (elitism : Bool) (elitism_frac : ℚ) :
    Except GAError GeneticAlgorithm :=
  .ok { pop_size := pop_size, genome_length := genome_length,
        crossover_rate := crossover_rate, mutation_rate := mutation_rate,
        mutation_sigma := mutation_sigma, tournament_size := tournament_size,
        elitism := elitism, elitism_frac := elitism_frac }

/-- Winner of one tournament: models
`contenders[np.argmax(fitnesses[contenders])]`. -/
def tournamentWinner (fitnesses : List ℚ) (contenders : List Nat) : Nat :=
  contenders.getD (argmaxIdx (contenders.map fun j => fitnesses.getD j 0)) 0

/-- Models `GeneticAlgorithm.tournament_selection`: `pop_size` rounds,
round `t` drawing the contender index list `draws t` (the model of
`rng.choice(pop_size, size=tournament_size, replace=False)`) and
keeping the contender with the greatest fitness, first drawn wins ties. -/
def tournament_selection (ga : GeneticAlgorithm) (fitnesses : List ℚ)
    (draws : Nat → List Nat) : List Nat :=
  (List.range ga.pop_size).map fun t => tournamentWinner fitnesses (draws t)

/-- Models `GeneticAlgorithm.crossover`: with the uniform draw `coin`
below `crossover_rate`, uniform crossover under the boolean mask drawn
from `crossU i < 0.5`; otherwise the children are copies of the parents. -/
def crossover (ga : GeneticAlgorithm) (coin : ℚ) (crossU : Nat → ℚ)
    (p1 p2 : List ℚ) : List ℚ × List ℚ :=
  if coin < ga.crossover_rate then
    (whereMask (fun i => crossU i < 1/2) 0 p1 p2,
     whereMask (fun i => crossU i < 1/2) 0 p2 p1)
  else (p1, p2)

/-- Models `GeneticAlgorithm.mutate`: gene `i` receives the Gaussian
draw `noise i` exactly when the uniform draw `u i` falls below
`mutation_rate` (`genome[mutation_mask] += noise[mutation_mask]`). -/
def mutate (ga : GeneticAlgorithm) (u : Nat → ℚ) (noise : Nat → ℚ)
    (genome : List ℚ) : List ℚ :=
  applyMask (fun i => u i < ga.mutation_rate) noise 0 genome

/-- Number of elites carried over by `step`:
`max(1, int(self.elitism_frac * self.pop_size))` when elitism is on with
a positive fraction, else `0`.  `int` truncation agrees with `⌊⌋` on the
non-negative products reached under the guard. -/
def eliteCount (ga : GeneticAlgorithm) : Nat :=
  if ga.elitism = true ∧ 0 < ga.elitism_frac then
    max 1 ⌊ga.elitism_frac * (ga.pop_size : ℚ)⌋.toNat
  else 0

/-- Models `np.argsort(fitnesses)[-n_elites:]`: the indices of the
`eliteCount` greatest fitness values (a `[-n:]` slice is a
`drop (len - n)`). -/
def elite_indices (ga : GeneticAlgorithm) (fitnesses : List ℚ) : List Nat :=
  (argsortAsc fitnesses).drop (fitnesses.length - ga.eliteCount)

/-- Models the elite rows `population[elite_indices]` (an empty row list
when elitism is off or the fraction non-positive, mirroring
`np.empty((0, genome_length))`). -/
def elites (ga : GeneticAlgorithm) (population : List (List ℚ)) (fitnesses : List ℚ) :
    List (List ℚ) :=
  if ga.elitism = true ∧ 0 < ga.elitism_frac then
    (ga.elite_indices fitnesses).map fun i => population.getD i []
  else []

/-- The random draws one call to `step` consumes, as an oracle: `draws t`
is round `t`'s tournament contender sample; pair `k` of the child loop
consumes the crossover coin `coin k` and mask uniforms `crossU k`; child
number `c` (children are numbered `2k` and `2k+1`) consumes mutation
uniforms `mutU c` and Gaussian draws `mutNoise c`. -/
structure StepTape where
  draws : Nat → List Nat
  coin : Nat → ℚ
  crossU : Nat → Nat → ℚ
  mutU : Nat → Nat → ℚ
  mutNoise : Nat → Nat → ℚ

/-- Iterations of `for i in range(0, pop_size - n_elites, 2)`: one per
pair of children. -/
def numPairs (remaining : Nat) : Nat := (remaining + 1) / 2

/-- The child-generation loop of `step`, producing the children of pairs
`0 .. k-1` in order.  Pair `k` reads `parent_indices[2k]` and
`parent_indices[2k+1]` — a Python list access that raises `IndexError`
when out of range — then crossover and per-child mutation. -/
def genChildren (ga : GeneticAlgorithm) (tape : StepTape) (parents : List Nat)
    (population : List (List ℚ)) : Nat → Except GAError (List (List ℚ))
  | 0 => .ok []
  | k + 1 =>
    match genChildren ga tape parents population k with
    | .error e => .error e
    | .ok prev =>
      match parents[2 * k]?, parents[2 * k + 1]? with
      | some idx1, some idx2 =>
        let p1 := population.getD idx1 []
        let p2 := population.getD idx2 []
        let c := ga.crossover (tape.coin k) (tape.crossU k) p1 p2
        .ok (prev ++ [ga.mutate (tape.mutU (2 * k)) (tape.mutNoise (2 * k)) c.1,
                      ga.mutate (tape.mutU (2 * k + 1)) (tape.mutNoise (2 * k + 1)) c.2])
      | _, _ => .error .indexError

/-- Models `GeneticAlgorithm.step`.  Elites are the top rows by fitness;
parents come from tournament selection; children are produced in pairs
and trimmed to the remaining `pop_size - elites.shape[0]` slots; the
final `np.vstack([new_pop, elites])` runs only when `elites.size` is
non-zero and raises a numpy `ValueError` when the generated block is the
shapeless empty array `np.array([])`. -/
def step (ga : GeneticAlgorithm) (tape : StepTape) (population : List (List ℚ))
    (fitnesses : List ℚ) : Except GAError (List (List ℚ)) :=
  let els := ga.elites population fitnesses
  let parents := ga.tournament_selection fitnesses tape.draws
  let remaining := ga.pop_size - els.length
  match genChildren ga tape parents population (numPairs remaining) with
  | .error e => .error e
  | .ok kids =>
    let new_pop := kids.take remaining
    if (els.map List.length).sum ≠ 0 then
      if new_pop.isEmpty then .error .shapeError
      else .ok (new_pop ++ els)
    else .ok new_pop

end GeneticAlgorithm

/-- Errors observable from `FeedForwardNet` (`src/network.py`):
`shapeMismatch` is the decode-time genome-length assertion,
`notDecoded` the `act`-time assertion that parameters exist, and
`emptyArgmax` the numpy `ValueError` from `np.argmax` on an empty logits
vector. -/
inductive NetError
  | shapeMismatch
  | notDecoded
  | emptyArgmax
  deriving DecidableEq

/-- Result of `FeedForwardNet.act`: a discrete action index from
`int(np.argmax(logits))`, or the raw logits vector. -/
inductive ActOut
  | action (i : Nat)
  | logits (v : List ℚ)
  deriving DecidableEq

namespace FeedForwardNet

/-- Models the `shapes` field computed by `FeedForwardNet.__init__`:
`(layer_sizes[i], layer_sizes[i+1])` for consecutive pairs. -/
def shapes (layer_sizes : List Nat) : List (Nat × Nat) :=
  layer_sizes.zip layer_sizes.tail

/-- Models the `num_weights` field:
`sum(in_dim * out_dim + out_dim for in_dim, out_dim in shapes)`. -/
def num_weights (layer_sizes : List Nat) : Nat :=
  ((shapes layer_sizes).map fun p => p.1 * p.2 + p.2).sum

/-- One decoded layer: weight matrix as a list of `in_dim` rows of
`out_dim` entries (`reshape(in_dim, out_dim)` is row-major), then the
bias vector of `out_dim` entries. -/
def decodeLayer (in_dim out_dim : Nat) (g : List ℚ) : List (List ℚ) × List ℚ :=
  let wFlat := g.take (in_dim * out_dim)
  ((List.range in_dim).map fun r => (wFlat.drop (r * out_dim)).take out_dim,
   (g.drop (in_dim * out_dim)).take out_dim)

/-- The decode loop of `FeedForwardNet.decode`: peel each layer's
`in_dim*out_dim` weight entries and `out_dim` bias entries off the front
of the genome, left to right. -/
def decodeLayers : List (Nat × Nat) → List ℚ → List (List (List ℚ) × List ℚ)
  | [], _ => []
  | (i, o) :: rest, g => decodeLayer i o g :: decodeLayers rest (g.drop (i * o + o))

/-- Models `FeedForwardNet.decode`: the genome-length assertion
(`ShapeMismatch` in the design document's taxonomy) guards the decode
loop. -/
def decode (layer_sizes : List Nat) (genome : List ℚ) :
    Except NetError (List (List (List ℚ)) × List (List ℚ)) :=
  if genome.length = num_weights layer_sizes then
    .ok ((decodeLayers (shapes layer_sizes) genome).map Prod.fst,
         (decodeLayers (shapes layer_sizes) genome).map Prod.snd)
  else .error .shapeMismatch

/-- Re-flattening decoded parameters in layer order: each layer's weight
rows concatenated (row-major), then its bias, layers left to right. -/
def flattenParams (params : List (List (List ℚ) × List ℚ)) : List ℚ :=
  (params.map fun p => p.1.flatten ++ p.2).flatten

/-- Dot product of two equally long vectors. -/
def dot (u v : List ℚ) : ℚ :=
  ((u.zip v).map fun p => p.1 * p.2).sum

/-- Models the affine map `x @ W + b` for a row vector `x`: output `j`
is `dot x (column j of W) + b[j]`. -/
def affine (x : List ℚ) (W : List (List ℚ)) (b : List ℚ) : List ℚ :=
  (List.range b.length).map fun j => dot x (W.map fun row => row.getD j 0) + b.getD j 0

/-- Models `FeedForwardNet.act`, with the elementwise activation
`np.tanh` abstracted as `φ` (the claims here concern the layer structure
and the argmax policy, which do not depend on the activation's values):
the guard models `assert self.weights and self.biases`; hidden layers
fold `φ(x @ W + b)` over `zip(weights[:-1], biases[:-1])`; the output
layer is affine only; discrete mode takes `int(np.argmax(logits))`
(numpy raises on an empty logits vector). -/
def act (φ : ℚ → ℚ) (weights : List (List (List ℚ))) (biases : List (List ℚ))
    (obs : List ℚ) (discrete : Bool) : Except NetError ActOut :=
  if weights = [] ∨ biases = [] then .error .notDecoded
  else
    let x := (weights.dropLast.zip biases.dropLast).foldl
      (fun x p => (affine x p.1 p.2).map φ) obs
    let logits := affine x (weights.getLastD []) (biases.getLastD [])
    if discrete then
      if logits.isEmpty then .error .emptyArgmax else .ok (.action (argmaxIdx logits))
    else .ok (.logits logits)

/-- Modelled from the spec: the forward pass described in §4.2, as a
recursion over the decoded layer list — every layer except the last
applies `φ` elementwise after the affine transform, the last layer is
affine only.  Stated from the spec's words to compare against `act`,
which is translated from the source's slice-and-fold loop. -/
def forwardSpec (φ : ℚ → ℚ) : List (List (List ℚ) × List ℚ) → List ℚ → List ℚ
  | [], x => x
  | [(W, b)], x => affine x W b
  | (W, b) :: l₂ :: rest, x => forwardSpec φ (l₂ :: rest) ((affine x W b).map φ)

end FeedForwardNet

/-- Failure mode of `EnvRunner.evaluate`: the unguarded
`total_reward / episodes` raises `ZeroDivisionError` in Python when
`episodes == 0`. -/
inductive RunError
  | zeroDivision
  deriving DecidableEq

namespace EnvRunner

/-- Models `EnvRunner.evaluate` (`src/env_runner.py`).  The external
environment is abstracted as an oracle `epRewards` giving the finite
reward sequence the rollout of episode `ep` accumulates before
termination/truncation; the runner owns only the accumulation
(`ep_reward` summed into `total_reward`) and the final unguarded
division by `episodes`. -/
def evaluate (epRewards : Nat → List ℚ) (episodes : Nat) : Except RunError ℚ :=
  let total := ((List.range episodes).map fun ep => (epRewards ep).sum).sum
  if episodes = 0 then .error .zeroDivision
  else .ok (total / (episodes : ℚ))

end EnvRunner

/-! ## Store-level model of `step`

numpy arrays are mutable objects.  To settle the frame claim — `step`
never writes to the input population's rows nor to the fitness vector —
the same `step` code is modelled once more against an explicit array
store: a numbered heap of rows.  `crossover` allocates its two children
fresh (`np.where` allocates; so does `.copy()`), `mutate` writes its
argument in place, row reads (`population[idx]`) are views and allocate
nothing, and the final `np.array`/`np.vstack` allocate fresh rows. -/

/-- A heap of numpy array rows: cell `i` holds the row's contents. -/
abbrev Store := List (List ℚ)

namespace GeneticAlgorithm

/-- Value-level uniform crossover, as in `crossover`, without the
allocation bookkeeping. -/
def crossoverVals (ga : GeneticAlgorithm) (coin : ℚ) (crossU : Nat → ℚ)
    (p1 p2 : List ℚ) : List ℚ × List ℚ :=
  ga.crossover coin crossU p1 p2

/-- Store-level `crossover`: read both parent rows, allocate both child
rows fresh; returns the new store and the two child cell numbers. -/
def crossoverStore (ga : GeneticAlgorithm) (coin : ℚ) (crossU : Nat → ℚ)
    (s : Store) (id1 id2 : Nat) : Store × Nat × Nat :=
  let c := ga.crossoverVals coin crossU (s.getD id1 []) (s.getD id2 [])
  (s ++ [c.1, c.2], s.length, s.length + 1)

/-- Store-level `mutate`: `genome[mutation_mask] += noise[mutation_mask]`
writes the row at cell `id` in place. -/
def mutateStore (ga : GeneticAlgorithm) (u : Nat → ℚ) (noise : Nat → ℚ)
    (s : Store) (id : Nat) : Store :=
  s.set id (ga.mutate u noise (s.getD id []))

/-- Store-level child-generation loop: pair `k` reads the parent rows as
views (no allocation), allocates two children by crossover, then mutates
both children in place. -/
def genChildrenStore (ga : GeneticAlgorithm) (tape : StepTape) (parents : List Nat)
    (popIds : List Nat) : Nat → Store → Store × Except GAError (List Nat)
  | 0, s => (s, .ok [])
  | k + 1, s =>
    match genChildrenStore ga tape parents popIds k s with
    | (s₁, .error e) => (s₁, .error e)
    | (s₁, .ok prev) =>
      match parents[2 * k]?, parents[2 * k + 1]? with
      | some idx1, some idx2 =>
        let a := popIds.getD idx1 0
        let b := popIds.getD idx2 0
        let r := ga.crossoverStore (tape.coin k) (tape.crossU k) s₁ a b
        let s₂ := ga.mutateStore (tape.mutU (2 * k)) (tape.mutNoise (2 * k)) r.1 r.2.1
        let s₃ := ga.mutateStore (tape.mutU (2 * k + 1)) (tape.mutNoise (2 * k + 1)) s₂ r.2.2
        (s₃, .ok (prev ++ [r.2.1, r.2.2]))
      | _, _ => (s₁, .error .indexError)

/-- Store-level `step`: the population is the list of its rows' cell
numbers `popIds`, the fitness vector the cell `fitId`.  Reads go through
the store; `np.array(new_pop)` and `np.vstack` allocate the result rows
fresh.  Returns the final store (also on error, to model the heap at
exception time) and the result rows' cell numbers. -/
def stepStore (ga : GeneticAlgorithm) (tape : StepTape) (s : Store)
    (popIds : List Nat) (fitId : Nat) : Store × Except GAError (List Nat) :=
  let fitnesses := s.getD fitId []
  let els := ga.elites (popIds.map fun i => s.getD i []) fitnesses
  let parents := ga.tournament_selection fitnesses tape.draws
  let remaining := ga.pop_size - els.length
  match genChildrenStore ga tape parents popIds (numPairs remaining) s with
  | (s₁, .error e) => (s₁, .error e)
  | (s₁, .ok kidIds) =>
    let keep := kidIds.take remaining
    if (els.map List.length).sum ≠ 0 then
      if keep.isEmpty then (s₁, .error .shapeError)
      else
        let rows := (keep.map fun i => s₁.getD i []) ++ els
        (s₁ ++ rows, .ok ((List.range rows.length).map fun j => s₁.length + j))
    else
      let rows := keep.map fun i => s₁.getD i []
      (s₁ ++ rows, .ok ((List.range rows.length).map fun j => s₁.length + j))

end GeneticAlgorithm

/-! ## Concrete configurations, tapes and data used in witnesses and
counterexamples -/

/-- One half, given in lowest terms so the kernel can evaluate with it
directly. -/
def oneHalf : ℚ := { num := 1, den := 2, den_nz := by decide, reduced := by decide }

/-- A legal configuration with an even population and elitism off. -/
def gaEvenNoElit : GeneticAlgorithm := ⟨2, 1, 0, 0, 0, 1, false, 0⟩

/-- A legal configuration with an odd population and elitism off. -/
def gaOddNoElit : GeneticAlgorithm := ⟨3, 1, 0, 0, 0, 1, false, 0⟩

/-- A legal configuration with `pop_size = tournament_size = 2`, elitism
off. -/
def gaPairTourney : GeneticAlgorithm := ⟨2, 1, 0, 0, 0, 2, false, 0⟩

/-- A legal configuration with a single-individual population and
elitism on with fraction one half. -/
def gaSolo : GeneticAlgorithm := ⟨1, 1, 0, 0, 0, 1, true, oneHalf⟩

/-- A legal configuration with two individuals and elitism on with
fraction one half. -/
def gaElitePair : GeneticAlgorithm := ⟨2, 1, 0, 0, 0, 1, true, oneHalf⟩

/-- A tape whose tournament draws are the single index `0`, whose
crossover coin and mask uniforms stay at `1` (so no crossover branch is
taken at zero rate) and whose mutation uniforms stay at `1` with zero
noise. -/
def tapeConst : GeneticAlgorithm.StepTape :=
  ⟨fun _ => [0], fun _ => 1, fun _ _ => 1, fun _ _ => 1, fun _ _ => 0⟩

/-- A tape whose tournament draws are `[0, 1]`, otherwise as
`tapeConst`. -/
def tapePair : GeneticAlgorithm.StepTape :=
  ⟨fun _ => [0, 1], fun _ => 1, fun _ _ => 1, fun _ _ => 1, fun _ _ => 0⟩

/-! ## Helper lemmas -/

theorem applyMask_length (mask : Nat → Bool) (noise : Nat → ℚ) :
    ∀ (i : Nat) (g : List ℚ), (applyMask mask noise i g).length = g.length := by
  intro i g
  induction g generalizing i with
  | nil => rfl
  | cons x xs ih => simp [applyMask, ih]

theorem whereMask_length (mask : Nat → Bool) :
    ∀ (i : Nat) (xs ys : List ℚ),
      (whereMask mask i xs ys).length = min xs.length ys.length := by
  intro i xs
  induction xs generalizing i with
  | nil => intro ys; cases ys <;> rfl
  | cons x xs ih =>
    intro ys
    cases ys with
    | nil => rfl
    | cons y ys => simp [whereMask, ih, Nat.succ_min_succ]

theorem GeneticAlgorithm.mutate_length (ga : GeneticAlgorithm) (u noise : Nat → ℚ)
    (g : List ℚ) : (ga.mutate u noise g).length = g.length :=
  applyMask_length ..

theorem GeneticAlgorithm.crossover_length (ga : GeneticAlgorithm) (coin : ℚ)
    (crossU : Nat → ℚ) (p1 p2 : List ℚ) (h : p1.length = p2.length) :
    (ga.crossover coin crossU p1 p2).1.length = p1.length ∧
      (ga.crossover coin crossU p1 p2).2.length = p1.length := by
  unfold GeneticAlgorithm.crossover
  by_cases hc : coin < ga.crossover_rate <;>
    simp [hc, whereMask_length, h, Nat.min_self]

theorem argmaxIdx_lt_length : ∀ (l : List ℚ), l ≠ [] → argmaxIdx l < l.length := by
  intro l
  induction l with
  | nil => intro h; exact absurd rfl h
  | cons x xs ih =>
    intro _
    cases xs with
    | nil => simp [argmaxIdx]
    | cons y rest =>
      rw [argmaxIdx]
      split
      · have := ih (by simp)
        simpa using Nat.succ_lt_succ this
      · simp

theorem getD_le_argmaxIdx : ∀ (l : List ℚ) (k : Nat), k < l.length →
    l.getD k 0 ≤ l.getD (argmaxIdx l) 0 := by
  intro l
  induction l with
  | nil => intro k hk; simp at hk
  | cons x xs ih =>
    intro k hk
    cases xs with
    | nil =>
      cases k with
      | zero => simp [argmaxIdx]
      | succ k => simp at hk
    | cons y rest =>
      by_cases hgt : x < (y :: rest).getD (argmaxIdx (y :: rest)) 0
      · rw [argmaxIdx, if_pos hgt]
        cases k with
        | zero => simpa using le_of_lt hgt
        | succ k =>
          have hk' : k < (y :: rest).length := by simpa using hk
          simpa using ih k hk'
      · rw [argmaxIdx, if_neg hgt]
        cases k with
        | zero => simp
        | succ k =>
          have hk' : k < (y :: rest).length := by simpa using hk
          have h1 := ih k hk'
          have h2 : (y :: rest).getD (argmaxIdx (y :: rest)) 0 ≤ x := le_of_not_lt hgt
          simpa using h1.trans h2

theorem getD_lt_of_lt_argmaxIdx : ∀ (l : List ℚ) (k : Nat), k < argmaxIdx l →
    l.getD k 0 < l.getD (argmaxIdx l) 0 := by
  intro l
  induction l with
  | nil => intro k hk; simp [argmaxIdx] at hk
  | cons x xs ih =>
    intro k hk
    cases xs with
    | nil => simp [argmaxIdx] at hk
    | cons y rest =>
      by_cases hgt : x < (y :: rest).getD (argmaxIdx (y :: rest)) 0
      · rw [argmaxIdx, if_pos hgt] at hk ⊢
        cases k with
        | zero => simpa using hgt
        | succ k =>
          have := ih k (Nat.lt_of_succ_lt_succ hk)
          simpa using this
      · rw [argmaxIdx, if_neg hgt] at hk
        simp at hk

theorem argsortAsc_perm (f : List ℚ) :
    List.Perm (argsortAsc f) (List.range f.length) :=
  List.perm_insertionSort (keyRel f) (List.range f.length)

theorem argsortAsc_length (f : List ℚ) : (argsortAsc f).length = f.length := by
  simpa using (argsortAsc_perm f).length_eq

theorem argsortAsc_nodup (f : List ℚ) : (argsortAsc f).Nodup :=
  ((argsortAsc_perm f).nodup_iff).mpr (List.nodup_range _)

theorem mem_argsortAsc (f : List ℚ) (i : Nat) : i ∈ argsortAsc f ↔ i < f.length := by
  rw [(argsortAsc_perm f).mem_iff, List.mem_range]

theorem argsortAsc_sorted (f : List ℚ) :
    List.Sorted (keyRel f) (argsortAsc f) :=
  List.sorted_insertionSort (keyRel f) (List.range f.length)

/-- Any index placed in the front (dropped) segment of the argsort has
fitness at most that of any index in the kept tail segment. -/
theorem argsortAsc_take_le_drop (f : List ℚ) (m : Nat) (j i : Nat)
    (hj : j ∈ (argsortAsc f).take m) (hi : i ∈ (argsortAsc f).drop m) :
    f.getD j 0 ≤ f.getD i 0 := by
  have hs := argsortAsc_sorted f
  rw [List.Sorted, ← List.take_append_drop m (argsortAsc f), List.pairwise_append] at hs
  have := hs.2.2 j hj i hi
  rcases this with h | ⟨h, _⟩
  · exact le_of_lt h
  · exact le_of_eq h

theorem tournamentWinner_mem (f : List ℚ) (cs : List Nat) (hcs : cs ≠ []) :
    GeneticAlgorithm.tournamentWinner f cs ∈ cs := by
  unfold GeneticAlgorithm.tournamentWinner
  have hlt : argmaxIdx (cs.map fun j => f.getD j 0) < cs.length := by
    have := argmaxIdx_lt_length (cs.map fun j => f.getD j 0) (by simpa using hcs)
    simpa using this
  rw [List.getD_eq_getElem?_getD, List.getElem?_eq_getElem hlt]
  exact List.getElem_mem ..

theorem tournamentWinner_lt (f : List ℚ) (cs : List Nat) (n : Nat) (hcs : cs ≠ [])
    (hb : ∀ j ∈ cs, j < n) : GeneticAlgorithm.tournamentWinner f cs < n :=
  hb _ (tournamentWinner_mem f cs hcs)

/-- The mapped fitness list evaluates as expected under `getD`. -/
theorem getD_map_fitness (f : List ℚ) (cs : List Nat) (r : Nat) (hr : r < cs.length) :
    (cs.map fun j => f.getD j 0).getD r 0 = f.getD (cs.getD r 0) 0 := by
  rw [List.getD_eq_getElem?_getD, List.getD_eq_getElem?_getD (l := cs),
    List.getElem?_map, List.getElem?_eq_getElem hr]
  simp [List.getD_eq_getElem?_getD]

/-- The tournament winner's fitness dominates every contender's fitness. -/
theorem tournamentWinner_fitness_ge (f : List ℚ) (cs : List Nat) (r : Nat)
    (hr : r < cs.length) :
    f.getD (cs.getD r 0) 0 ≤ f.getD (GeneticAlgorithm.tournamentWinner f cs) 0 := by
  have hne : cs ≠ [] := by rintro rfl; simp at hr
  have hlt : argmaxIdx (cs.map fun j => f.getD j 0) < cs.length := by
    have := argmaxIdx_lt_length (cs.map fun j => f.getD j 0) (by simpa using hne)
    simpa using this
  have h1 := getD_le_argmaxIdx (cs.map fun j => f.getD j 0) r (by simpa using hr)
  rw [getD_map_fitness f cs r hr] at h1
  rw [getD_map_fitness f cs _ hlt] at h1
  exact h1

theorem getD_mem {α : Type} (l : List α) (d : α) (i : Nat) (h : i < l.length) :
    l.getD i d ∈ l := by
  rw [List.getD_eq_getElem?_getD, List.getElem?_eq_getElem h]
  exact List.getElem_mem ..

theorem tournament_selection_length (ga : GeneticAlgorithm) (fitnesses : List ℚ)
    (draws : Nat → List Nat) :
    (ga.tournament_selection fitnesses draws).length = ga.pop_size := by
  simp [GeneticAlgorithm.tournament_selection]

theorem tournament_selection_lt (ga : GeneticAlgorithm) (fitnesses : List ℚ)
    (draws : Nat → List Nat)
    (hdraw : ∀ t, draws t ≠ [] ∧ ∀ j ∈ draws t, j < ga.pop_size) :
    ∀ w ∈ ga.tournament_selection fitnesses draws, w < ga.pop_size := by
  intro w hw
  unfold GeneticAlgorithm.tournament_selection at hw
  obtain ⟨t, _, rfl⟩ := List.mem_map.mp hw
  exact tournamentWinner_lt fitnesses (draws t) ga.pop_size (hdraw t).1 (hdraw t).2

theorem genChildren_ok (ga : GeneticAlgorithm) (tape : GeneticAlgorithm.StepTape)
    (parents : List Nat) (population : List (List ℚ)) (L : Nat)
    (hrow : ∀ idx ∈ parents, (population.getD idx []).length = L) :
    ∀ K, (∀ k < K, 2 * k + 1 < parents.length) →
      ∃ kids, ga.genChildren tape parents population K = .ok kids ∧
        kids.length = 2 * K ∧ ∀ c ∈ kids, c.length = L := by
  intro K
  induction K with
  | zero => exact fun _ => ⟨[], rfl, rfl, by simp⟩
  | succ K ih =>
    intro hidx
    obtain ⟨kids, hk, hklen, hall⟩ := ih fun k hk => hidx k (Nat.lt_succ_of_lt hk)
    have h2 : 2 * K + 1 < parents.length := hidx K (Nat.lt_succ_self K)
    have h1 : 2 * K < parents.length := lt_trans (Nat.lt_succ_self _) h2
    have hp1 : (population.getD parents[2 * K] []).length = L :=
      hrow _ (List.getElem_mem ..)
    have hp2 : (population.getD parents[2 * K + 1] []).length = L :=
      hrow _ (List.getElem_mem ..)
    have hcl := ga.crossover_length (tape.coin K) (tape.crossU K)
      (population.getD parents[2 * K] []) (population.getD parents[2 * K + 1] [])
      (hp1.trans hp2.symm)
    refine ⟨kids ++ [ga.mutate (tape.mutU (2 * K)) (tape.mutNoise (2 * K))
        (ga.crossover (tape.coin K) (tape.crossU K) (population.getD parents[2 * K] [])
          (population.getD parents[2 * K + 1] [])).1,
      ga.mutate (tape.mutU (2 * K + 1)) (tape.mutNoise (2 * K + 1))
        (ga.crossover (tape.coin K) (tape.crossU K) (population.getD parents[2 * K] [])
          (population.getD parents[2 * K + 1] [])).2], ?_, ?_, ?_⟩
    · rw [GeneticAlgorithm.genChildren, hk, List.getElem?_eq_getElem h1,
        List.getElem?_eq_getElem h2]
    · simp [hklen, Nat.mul_succ]
    · intro c hc
      rcases List.mem_append.mp hc with hc | hc
      · exact hall c hc
      · simp only [List.mem_cons, List.not_mem_nil, or_false] at hc
        rcases hc with rfl | rfl
        · rw [GeneticAlgorithm.mutate_length]; exact hcl.1.trans hp1
        · rw [GeneticAlgorithm.mutate_length]; exact hcl.2.trans hp1

theorem elites_eq_nil (ga : GeneticAlgorithm) (population : List (List ℚ))
    (fitnesses : List ℚ) (h : ¬(ga.elitism = true ∧ 0 < ga.elitism_frac)) :
    ga.elites population fitnesses = [] := by
  simp [GeneticAlgorithm.elites, h]

theorem eliteCount_pos (ga : GeneticAlgorithm)
    (h : ga.elitism = true ∧ 0 < ga.elitism_frac) : 1 ≤ ga.eliteCount := by
  simp [GeneticAlgorithm.eliteCount, h]

theorem elite_indices_length (ga : GeneticAlgorithm) (fitnesses : List ℚ)
    (h : ga.eliteCount ≤ fitnesses.length) :
    (ga.elite_indices fitnesses).length = ga.eliteCount := by
  unfold GeneticAlgorithm.elite_indices
  rw [List.length_drop, argsortAsc_length]
  omega

theorem elite_indices_lt (ga : GeneticAlgorithm) (fitnesses : List ℚ) :
    ∀ i ∈ ga.elite_indices fitnesses, i < fitnesses.length := by
  intro i hi
  exact (mem_argsortAsc fitnesses i).mp (List.mem_of_mem_drop hi)

theorem elite_indices_nodup (ga : GeneticAlgorithm) (fitnesses : List ℚ) :
    (ga.elite_indices fitnesses).Nodup :=
  (argsortAsc_nodup fitnesses).sublist (List.drop_sublist ..)

/-- The elite indices carry the greatest fitness values: any non-elite
index has fitness at most that of every elite index. -/
theorem elite_indices_top (ga : GeneticAlgorithm) (fitnesses : List ℚ) :
    ∀ i ∈ ga.elite_indices fitnesses, ∀ j < fitnesses.length,
      j ∉ ga.elite_indices fitnesses → fitnesses.getD j 0 ≤ fitnesses.getD i 0 := by
  intro i hi j hj hnj
  have hjmem : j ∈ argsortAsc fitnesses := (mem_argsortAsc fitnesses j).mpr hj
  rw [← List.take_append_drop (fitnesses.length - ga.eliteCount)
    (argsortAsc fitnesses), List.mem_append] at hjmem
  rcases hjmem with hjmem | hjmem
  · exact argsortAsc_take_le_drop fitnesses _ j i hjmem hi
  · exact absurd hjmem hnj

theorem elites_length (ga : GeneticAlgorithm) (population : List (List ℚ))
    (fitnesses : List ℚ) (hguard : ga.elitism = true ∧ 0 < ga.elitism_frac)
    (h : ga.eliteCount ≤ fitnesses.length) :
    (ga.elites population fitnesses).length = ga.eliteCount := by
  simp only [GeneticAlgorithm.elites, if_pos hguard, List.length_map]
  exact elite_indices_length ga fitnesses h

theorem elites_row_length (ga : GeneticAlgorithm) (population : List (List ℚ))
    (fitnesses : List ℚ) (hpf : fitnesses.length = population.length)
    (hlen : ∀ g ∈ population, g.length = ga.genome_length) :
    ∀ g ∈ ga.elites population fitnesses, g.length = ga.genome_length := by
  intro g hg
  unfold GeneticAlgorithm.elites at hg
  split at hg
  · obtain ⟨i, hi, rfl⟩ := List.mem_map.mp hg
    have : i < population.length := hpf ▸ elite_indices_lt ga fitnesses i hi
    exact hlen _ (getD_mem population [] i this)
  · cases hg

theorem step_ok_no_elites (ga : GeneticAlgorithm) (tape : GeneticAlgorithm.StepTape)
    (population : List (List ℚ)) (fitnesses : List ℚ)
    (hguard : ¬(ga.elitism = true ∧ 0 < ga.elitism_frac))
    (hpop : population.length = ga.pop_size)
    (hlen : ∀ g ∈ population, g.length = ga.genome_length)
    (heven : ga.pop_size % 2 = 0)
    (hdraw : ∀ t, tape.draws t ≠ [] ∧ ∀ j ∈ tape.draws t, j < ga.pop_size) :
    ∃ out, ga.step tape population fitnesses = .ok out ∧
      out.length = ga.pop_size ∧ ∀ g ∈ out, g.length = ga.genome_length := by
  have hels : ga.elites population fitnesses = [] :=
    elites_eq_nil ga population fitnesses hguard
  have hplen := tournament_selection_length ga fitnesses tape.draws
  have hrow : ∀ idx ∈ ga.tournament_selection fitnesses tape.draws,
      (population.getD idx []).length = ga.genome_length := by
    intro idx hidx
    have hidxlt := tournament_selection_lt ga fitnesses tape.draws hdraw idx hidx
    exact hlen _ (getD_mem population [] idx (by omega))
  have hKidx : ∀ k < GeneticAlgorithm.numPairs ga.pop_size,
      2 * k + 1 < (ga.tournament_selection fitnesses tape.draws).length := by
    intro k hk
    rw [hplen]
    unfold GeneticAlgorithm.numPairs at hk
    omega
  obtain ⟨kids, hkids, hklen, hall⟩ := genChildren_ok ga tape
    (ga.tournament_selection fitnesses tape.draws) population ga.genome_length hrow
    (GeneticAlgorithm.numPairs ga.pop_size) hKidx
  have htlen : (kids.take ga.pop_size).length = ga.pop_size := by
    rw [List.length_take, hklen]
    unfold GeneticAlgorithm.numPairs
    omega
  refine ⟨kids.take ga.pop_size, ?_, htlen, ?_⟩
  · simp only [GeneticAlgorithm.step, hels, List.length_nil, Nat.sub_zero, hkids,
      List.map_nil, List.sum_nil, ne_eq, not_true_eq_false, List.append_nil,
      if_false, ite_false, not_false_iff]
  · intro g hg
    exact hall g (List.mem_of_mem_take hg)

theorem step_ok_elites (ga : GeneticAlgorithm) (tape : GeneticAlgorithm.StepTape)
    (population : List (List ℚ)) (fitnesses : List ℚ)
    (hguard : ga.elitism = true ∧ 0 < ga.elitism_frac)
    (hpop : population.length = ga.pop_size)
    (hlen : ∀ g ∈ population, g.length = ga.genome_length)
    (hfit : fitnesses.length = ga.pop_size)
    (hL : 1 ≤ ga.genome_length)
    (hlt : ga.eliteCount < ga.pop_size)
    (hdraw : ∀ t, tape.draws t ≠ [] ∧ ∀ j ∈ tape.draws t, j < ga.pop_size) :
    ∃ out, ga.step tape population fitnesses = .ok out ∧
      out.length = ga.pop_size ∧ (∀ g ∈ out, g.length = ga.genome_length) ∧
      ∀ g ∈ ga.elites population fitnesses, g ∈ out := by
  have he1 : 1 ≤ ga.eliteCount := eliteCount_pos ga hguard
  have hellen : (ga.elites population fitnesses).length = ga.eliteCount :=
    elites_length ga population fitnesses hguard (by omega)
  have helrow : ∀ g ∈ ga.elites population fitnesses, g.length = ga.genome_length :=
    elites_row_length ga population fitnesses (by omega) hlen
  have hplen := tournament_selection_length ga fitnesses tape.draws
  have hrow : ∀ idx ∈ ga.tournament_selection fitnesses tape.draws,
      (population.getD idx []).length = ga.genome_length := by
    intro idx hidx
    have hidxlt := tournament_selection_lt ga fitnesses tape.draws hdraw idx hidx
    exact hlen _ (getD_mem population [] idx (by omega))
  have hKidx : ∀ k < GeneticAlgorithm.numPairs (ga.pop_size - ga.eliteCount),
      2 * k + 1 < (ga.tournament_selection fitnesses tape.draws).length := by
    intro k hk
    rw [hplen]
    unfold GeneticAlgorithm.numPairs at hk
    omega
  obtain ⟨kids, hkids, hklen, hall⟩ := genChildren_ok ga tape
    (ga.tournament_selection fitnesses tape.draws) population ga.genome_length hrow
    (GeneticAlgorithm.numPairs (ga.pop_size - ga.eliteCount)) hKidx
  have htlen : (kids.take (ga.pop_size - ga.eliteCount)).length =
      ga.pop_size - ga.eliteCount := by
    rw [List.length_take, hklen]
    unfold GeneticAlgorithm.numPairs
    omega
  have hsum : ((ga.elites population fitnesses).map List.length).sum ≠ 0 := by
    have hne : ga.elites population fitnesses ≠ [] := by
      intro h
      rw [h] at hellen
      simp at hellen
      omega
    obtain ⟨g, hg⟩ := List.exists_mem_of_ne_nil _ hne
    have h1 : g.length ∈ (ga.elites population fitnesses).map List.length :=
      List.mem_map_of_mem _ hg
    have h2 := List.single_le_sum (l := (ga.elites population fitnesses).map List.length)
      (fun x _ => Nat.zero_le x) _ h1
    have h3 := helrow g hg
    omega
  have hne : (kids.take (ga.pop_size - ga.eliteCount)).isEmpty = false := by
    rw [List.isEmpty_eq_false_iff_exists_mem]
    have : 1 ≤ (kids.take (ga.pop_size - ga.eliteCount)).length := by omega
    obtain ⟨g, hg⟩ := List.exists_mem_of_ne_nil (kids.take (ga.pop_size - ga.eliteCount))
      (by intro h; rw [h] at this; simp at this)
    exact ⟨g, hg⟩
  refine ⟨kids.take (ga.pop_size - ga.eliteCount) ++ ga.elites population fitnesses,
    ?_, ?_, ?_, ?_⟩
  · simp only [GeneticAlgorithm.step, hellen, hkids, hsum, hne, ne_eq,
      not_false_iff, if_true, Bool.false_eq_true, if_false, ite_true, ite_false]
  · rw [List.length_append, htlen, hellen]
    omega
  · intro g hg
    rcases List.mem_append.mp hg with hg | hg
    · exact hall g (List.mem_of_mem_take hg)
    · exact helrow g hg
  · intro g hg
    exact List.mem_append_right _ hg

theorem eliteCount_eq_zero (ga : GeneticAlgorithm)
    (h : ¬(ga.elitism = true ∧ 0 < ga.elitism_frac)) : ga.eliteCount = 0 := by
  simp [GeneticAlgorithm.eliteCount, h]

theorem getD_eq_getElem_of_lt {α : Type} (l : List α) (d : α) (i : Nat)
    (h : i < l.length) : l.getD i d = l[i] := by
  rw [List.getD_eq_getElem?_getD, List.getElem?_eq_getElem h]
  rfl

theorem getD_map_range {α : Type} (f : Nat → α) (n t : Nat) (d : α) (ht : t < n) :
    (((List.range n).map f).getD t d) = f t := by
  rw [List.getD_eq_getElem?_getD, List.getElem?_map, List.getElem?_range ht]
  rfl

/-- A duplicate-free list of `n` naturals all below `n` contains every
natural below `n`. -/
theorem mem_of_nodup_length_bound (cs : List Nat) (n : Nat) (hlen : cs.length = n)
    (hnd : cs.Nodup) (hbd : ∀ j ∈ cs, j < n) : ∀ x < n, x ∈ cs := by
  intro x hx
  have hsub : cs.toFinset ⊆ Finset.range n := by
    intro j hj
    exact Finset.mem_range.mpr (hbd j (List.mem_toFinset.mp hj))
  have hcard : cs.toFinset.card = n := by
    rw [List.toFinset_card_of_nodup hnd, hlen]
  have heq : cs.toFinset = Finset.range n :=
    Finset.eq_of_subset_of_card_le hsub (by rw [hcard, Finset.card_range])
  have : x ∈ cs.toFinset := heq ▸ Finset.mem_range.mpr hx
  exact List.mem_toFinset.mp this

/-! ## Claim theorems -/

/-- C1 (corrected).  For a configuration with positive genome length,
matching population/fitness sizes and in-range tournament draws, `step`
returns exactly `pop_size` genomes of length `genome_length` — elites
plus generated children, the last generated child dropped by the
`[: pop_size - n_elites]` trim when the remaining-slot count is odd —
provided the elite count `e` is either `0` with `pop_size` even, or
satisfies `1 ≤ e < pop_size`.  The excluded legal configurations
genuinely crash (see the counterexample): with `e = 0` and `pop_size`
odd the loop reads `parent_indices[pop_size]` (IndexError), and with
`e = pop_size` the final `vstack` raises (ValueError). -/
theorem step_returns_pop_size (ga : GeneticAlgorithm) (tape : GeneticAlgorithm.StepTape)
    (population : List (List ℚ)) (fitnesses : List ℚ)
    (hpop : population.length = ga.pop_size)
    (hlen : ∀ g ∈ population, g.length = ga.genome_length)
    (hfit : fitnesses.length = ga.pop_size)
    (hL : 1 ≤ ga.genome_length)
    (hdraw : ∀ t, tape.draws t ≠ [] ∧ ∀ j ∈ tape.draws t, j < ga.pop_size)
    (hcase : (ga.eliteCount = 0 ∧ ga.pop_size % 2 = 0) ∨
      (1 ≤ ga.eliteCount ∧ ga.eliteCount < ga.pop_size)) :
    ∃ out, ga.step tape population fitnesses = .ok out ∧
      out.length = ga.pop_size ∧ ∀ g ∈ out, g.length = ga.genome_length := by
  rcases hcase with ⟨h0, heven⟩ | ⟨h1, hlt⟩
  · have hguard : ¬(ga.elitism = true ∧ 0 < ga.elitism_frac) := by
      intro hg
      have := eliteCount_pos ga hg
      omega
    exact step_ok_no_elites ga tape population fitnesses hguard hpop hlen heven hdraw
  · have hguard : ga.elitism = true ∧ 0 < ga.elitism_frac := by
      by_contra hg
      have := eliteCount_eq_zero ga hg
      omega
    obtain ⟨out, ho, hl, hg, _⟩ :=
      step_ok_elites ga tape population fitnesses hguard hpop hlen hfit hL hlt hdraw
    exact ⟨out, ho, hl, hg⟩

/-- C1 witness: the amended theorem applied at the legal even-population
no-elitism configuration `pop_size = 2`. -/
theorem step_returns_pop_size_witness :
    ∃ out, gaEvenNoElit.step tapeConst [[0], [0]] [0, 0] = .ok out ∧
      out.length = gaEvenNoElit.pop_size ∧
      ∀ g ∈ out, g.length = gaEvenNoElit.genome_length :=
  step_returns_pop_size gaEvenNoElit tapeConst [[0], [0]] [0, 0] (by decide) (by decide)
    (by decide) (by decide)
    (fun t => ⟨by show ([0] : List Nat) ≠ []; decide,
      by show ∀ j ∈ ([0] : List Nat), j < 2; decide⟩)
    (Or.inl ⟨by decide, by decide⟩)

/-- C1 counterexample: at the legal configuration `pop_size = 3` with
elitism off — an odd population without elites — `step` raises
`IndexError` (`parent_indices[3]` on a list of length 3) instead of
returning a population of 3 genomes. -/
theorem step_returns_pop_size_counterexample :
    1 ≤ gaOddNoElit.pop_size ∧ gaOddNoElit.elitism = false ∧
    ([[0], [0], [0]] : List (List ℚ)).length = gaOddNoElit.pop_size ∧
    gaOddNoElit.step tapeConst [[0], [0], [0]] [0, 0, 0] = .error .indexError :=
  ⟨by decide, rfl, by decide, rfl⟩

/-- C2 (corrected).  The constructor performs no hyperparameter
validation at all: for every argument tuple — including non-positive
`pop_size`, `tournament_size` outside `[1, pop_size]`, negative rates
or sigma, and `elitism_fraction` outside `[0, 1]` — construction
succeeds and simply stores the arguments; no `InvalidConfig` error is
ever raised. -/
theorem init_stores_any_config (pop_size genome_length : Nat)
    (crossover_rate mutation_rate mutation_sigma : ℚ) (tournament_size : Nat)
    (elitism : Bool) (elitism_frac : ℚ) :
    GeneticAlgorithm.init pop_size genome_length crossover_rate mutation_rate
        mutation_sigma tournament_size elitism elitism_frac =
      .ok ⟨pop_size, genome_length, crossover_rate, mutation_rate, mutation_sigma,
        tournament_size, elitism, elitism_frac⟩ :=
  rfl

/-- C2 counterexample: a configuration violating every stated bound —
`tournament_size = 5 > pop_size = 3`, negative rates and sigma,
`elitism_fraction = 2 > 1` — is accepted at construction rather than
rejected with `InvalidConfig`. -/
theorem init_no_invalid_config_counterexample :
    GeneticAlgorithm.init 3 1 (-1) (-1) (-1) 5 true 2 =
      .ok ⟨3, 1, -1, -1, -1, 5, true, 2⟩ ∧
    ∀ e : GAError, GeneticAlgorithm.init 3 1 (-1) (-1) (-1) 5 true 2 ≠ .error e :=
  ⟨rfl, fun _ h => nomatch h⟩

/-- C3 (corrected).  `step` performs no fitness-length validation: for
every fitness vector strictly longer than `pop_size` — the mismatch
regime where every fitness read stays in range, since with elitism off
the vector is read only at tournament indices below `pop_size` — `step`
silently returns a full population of `pop_size` genomes; no
`InvalidFitnessLength` error exists in the code.  (A vector shorter
than `pop_size` is outside this statement: there
`fitnesses[contenders]` can raise numpy's generic IndexError — still
never `InvalidFitnessLength`.) -/
theorem step_ignores_fitness_length (ga : GeneticAlgorithm)
    (tape : GeneticAlgorithm.StepTape) (population : List (List ℚ))
    (fitnesses : List ℚ)
    (hguard : ¬(ga.elitism = true ∧ 0 < ga.elitism_frac))
    (hpop : population.length = ga.pop_size)
    (hlen : ∀ g ∈ population, g.length = ga.genome_length)
    (heven : ga.pop_size % 2 = 0)
    (hdraw : ∀ t, tape.draws t ≠ [] ∧ ∀ j ∈ tape.draws t, j < ga.pop_size)
    (hlonger : ga.pop_size < fitnesses.length) :
    fitnesses.length ≠ ga.pop_size ∧
      ∃ out, ga.step tape population fitnesses = .ok out ∧
        out.length = ga.pop_size := by
  refine ⟨by omega, ?_⟩
  obtain ⟨out, h1, h2, _⟩ :=
    step_ok_no_elites ga tape population fitnesses hguard hpop hlen heven hdraw
  exact ⟨out, h1, h2⟩

/-- C3 witness: the amended theorem applied at `pop_size = 2` with a
fitness vector of length 3. -/
theorem step_ignores_fitness_length_witness :
    ([(0 : ℚ), 0, 0].length ≠ gaPairTourney.pop_size) ∧
    ∃ out, gaPairTourney.step tapePair [[1], [2]] [0, 0, 0] = .ok out ∧
      out.length = gaPairTourney.pop_size :=
  step_ignores_fitness_length gaPairTourney tapePair [[1], [2]] [0, 0, 0] (by decide)
    (by decide) (by decide) (by decide)
    (fun t => ⟨by show ([0, 1] : List Nat) ≠ []; decide,
      by show ∀ j ∈ ([0, 1] : List Nat), j < 2; decide⟩)
    (by decide)

/-- C3 counterexample: with `pop_size = 2` and a fitness vector of
length 3, `step` silently succeeds and returns 2 genomes — it does not
fail with `InvalidFitnessLength`. -/
theorem step_ignores_fitness_length_counterexample :
    ([(0 : ℚ), 0, 0].length ≠ gaPairTourney.pop_size) ∧
    gaPairTourney.step tapePair [[1], [2]] [0, 0, 0] = .ok [[1], [1]] :=
  ⟨by decide, rfl⟩

/-- C5 (corrected).  With elitism enabled and a positive fraction, and
provided the elite count `max(1, ⌊f·pop_size⌋)` is less than `pop_size`
(otherwise `step` crashes — see the counterexample), there is a
duplicate-free set `S` of `eliteCount` indices whose fitness values
dominate every index outside `S`, and every genome of the input
population at an index of `S` appears unchanged in the population
returned by `step`. -/
theorem step_elites_survive (ga : GeneticAlgorithm) (tape : GeneticAlgorithm.StepTape)
    (population : List (List ℚ)) (fitnesses : List ℚ)
    (helit : ga.elitism = true) (hfrac : 0 < ga.elitism_frac)
    (hpop : population.length = ga.pop_size)
    (hlen : ∀ g ∈ population, g.length = ga.genome_length)
    (hfit : fitnesses.length = ga.pop_size)
    (hdraw : ∀ t, tape.draws t ≠ [] ∧ ∀ j ∈ tape.draws t, j < ga.pop_size)
    (hlt : ga.eliteCount < ga.pop_size) :
    ∃ out, ga.step tape population fitnesses = .ok out ∧
      ∃ S : List Nat, S.length = ga.eliteCount ∧ S.Nodup ∧
        (∀ i ∈ S, i < ga.pop_size) ∧
        (∀ i ∈ S, ∀ j < ga.pop_size, j ∉ S →
          fitnesses.getD j 0 ≤ fitnesses.getD i 0) ∧
        ∀ i ∈ S, population.getD i [] ∈ out := by
  have hguard : ga.elitism = true ∧ 0 < ga.elitism_frac := ⟨helit, hfrac⟩
  have hSlen : (ga.elite_indices fitnesses).length = ga.eliteCount :=
    elite_indices_length ga fitnesses (by omega)
  have hSnd := elite_indices_nodup ga fitnesses
  have hSlt : ∀ i ∈ ga.elite_indices fitnesses, i < ga.pop_size := by
    intro i hi
    have := elite_indices_lt ga fitnesses i hi
    omega
  have hStop : ∀ i ∈ ga.elite_indices fitnesses, ∀ j < ga.pop_size,
      j ∉ ga.elite_indices fitnesses → fitnesses.getD j 0 ≤ fitnesses.getD i 0 := by
    intro i hi j hj hnj
    exact elite_indices_top ga fitnesses i hi j (by omega) hnj
  by_cases hL : 1 ≤ ga.genome_length
  · obtain ⟨out, ho, _, _, hmem⟩ :=
      step_ok_elites ga tape population fitnesses hguard hpop hlen hfit hL hlt hdraw
    refine ⟨out, ho, ga.elite_indices fitnesses, hSlen, hSnd, hSlt, hStop, ?_⟩
    intro i hi
    apply hmem
    simp only [GeneticAlgorithm.elites, if_pos hguard]
    exact List.mem_map_of_mem _ hi
  · have hL0 : ga.genome_length = 0 := by omega
    have he1 : 1 ≤ ga.eliteCount := eliteCount_pos ga hguard
    have hellen : (ga.elites population fitnesses).length = ga.eliteCount :=
      elites_length ga population fitnesses hguard (by omega)
    have helrow := elites_row_length ga population fitnesses (by omega) hlen
    have hplen := tournament_selection_length ga fitnesses tape.draws
    have hrow : ∀ idx ∈ ga.tournament_selection fitnesses tape.draws,
        (population.getD idx []).length = ga.genome_length := by
      intro idx hidx
      have := tournament_selection_lt ga fitnesses tape.draws hdraw idx hidx
      exact hlen _ (getD_mem population [] idx (by omega))
    have hKidx : ∀ k < GeneticAlgorithm.numPairs
        (ga.pop_size - (ga.elites population fitnesses).length),
        2 * k + 1 < (ga.tournament_selection fitnesses tape.draws).length := by
      intro k hk
      rw [hplen]
      rw [hellen] at hk
      unfold GeneticAlgorithm.numPairs at hk
      omega
    obtain ⟨kids, hkids, hklen, hall⟩ := genChildren_ok ga tape
      (ga.tournament_selection fitnesses tape.draws) population ga.genome_length hrow
      (GeneticAlgorithm.numPairs (ga.pop_size - (ga.elites population fitnesses).length))
      hKidx
    have hsum0 : ((ga.elites population fitnesses).map List.length).sum = 0 := by
      apply List.sum_eq_zero
      intro x hx
      obtain ⟨g, hg, rfl⟩ := List.mem_map.mp hx
      rw [helrow g hg, hL0]
    have hstep : ga.step tape population fitnesses =
        .ok (kids.take (ga.pop_size - (ga.elites population fitnesses).length)) := by
      simp only [GeneticAlgorithm.step, hkids, hsum0, ne_eq, not_true_eq_false,
        if_false, ite_false, not_false_iff]
    have htlen : (kids.take
        (ga.pop_size - (ga.elites population fitnesses).length)).length =
        ga.pop_size - (ga.elites population fitnesses).length := by
      rw [List.length_take, hklen]
      unfold GeneticAlgorithm.numPairs
      omega
    refine ⟨_, hstep, ga.elite_indices fitnesses, hSlen, hSnd, hSlt, hStop, ?_⟩
    intro i hi
    have hi_lt : i < population.length := by
      rw [hpop]
      exact hSlt i hi
    have hgnil : population.getD i [] = [] := by
      rw [← List.length_eq_zero, hlen _ (getD_mem population [] i hi_lt), hL0]
    obtain ⟨g, hg⟩ := List.exists_mem_of_ne_nil
      (kids.take (ga.pop_size - (ga.elites population fitnesses).length)) (by
        intro h
        rw [h] at htlen
        simp at htlen
        omega)
    have hgz : g = [] := by
      rw [← List.length_eq_zero, hall g (List.mem_of_mem_take hg), hL0]
    rw [hgnil, ← hgz]
    exact hg

/-- C5 witness: the amended theorem applied at `pop_size = 2` with
elitism fraction one half (elite count 1). -/
theorem step_elites_survive_witness :
    ∃ out, gaElitePair.step tapeConst [[3], [7]] [1, 2] = .ok out ∧
      ∃ S : List Nat, S.length = gaElitePair.eliteCount ∧ S.Nodup ∧
        (∀ i ∈ S, i < gaElitePair.pop_size) ∧
        (∀ i ∈ S, ∀ j < gaElitePair.pop_size, j ∉ S →
          [(1 : ℚ), 2].getD j 0 ≤ [(1 : ℚ), 2].getD i 0) ∧
        ∀ i ∈ S, ([[3], [7]] : List (List ℚ)).getD i [] ∈ out :=
  step_elites_survive gaElitePair tapeConst [[3], [7]] [1, 2] rfl (by decide)
    (by decide) (by decide) (by decide)
    (fun t => ⟨by show ([0] : List Nat) ≠ []; decide,
      by show ∀ j ∈ ([0] : List Nat), j < 2; decide⟩)
    (by with_unfolding_all decide)

/-- C5 counterexample: at the legal configuration `pop_size = 1`,
`elitism = true`, `elitism_fraction = 1/2` (elite count
`max(1, ⌊1/2⌋) = 1 = pop_size`), `step` raises a numpy shape error in
`vstack` instead of returning a population containing the best genome. -/
theorem step_elites_survive_counterexample :
    gaSolo.elitism = true ∧ 0 < gaSolo.elitism_frac ∧
    gaSolo.step tapeConst [[5]] [0] = .error .shapeError :=
  ⟨rfl, by decide, by with_unfolding_all rfl⟩

/-- C6 (confirmed).  For a fitness vector of length `pop_size` and
tournament draws that are duplicate-free in-range samples of size
`tournament_size ≥ 1` (exactly what
`rng.choice(pop_size, size=tournament_size, replace=False)` produces):
every selected parent index lies in `[0, pop_size)`; round `t` returns
the drawn contender at the first position attaining the maximal fitness
among the draw (first-drawn wins ties); and when
`tournament_size = pop_size` and the maximum fitness is attained
uniquely, every one of the selected parents is that single best
individual. -/
theorem tournament_selection_spec (ga : GeneticAlgorithm) (fitnesses : List ℚ)
    (draws : Nat → List Nat)
    (hfit : fitnesses.length = ga.pop_size)
    (hdraw : ∀ t < ga.pop_size, (draws t).length = ga.tournament_size ∧
      (draws t).Nodup ∧ ∀ j ∈ draws t, j < ga.pop_size)
    (hts : 1 ≤ ga.tournament_size) :
    (∀ w ∈ ga.tournament_selection fitnesses draws, w < ga.pop_size) ∧
    (∀ t < ga.pop_size, ∃ m < (draws t).length,
      (ga.tournament_selection fitnesses draws).getD t 0 = (draws t).getD m 0 ∧
      (∀ r < (draws t).length,
        fitnesses.getD ((draws t).getD r 0) 0 ≤ fitnesses.getD ((draws t).getD m 0) 0) ∧
      ∀ r < m,
        fitnesses.getD ((draws t).getD r 0) 0 < fitnesses.getD ((draws t).getD m 0) 0) ∧
    (ga.tournament_size = ga.pop_size →
      ∀ b < ga.pop_size,
        (∀ j < ga.pop_size, j ≠ b → fitnesses.getD j 0 < fitnesses.getD b 0) →
        ∀ w ∈ ga.tournament_selection fitnesses draws, w = b) := by
  have hbound : ∀ w ∈ ga.tournament_selection fitnesses draws, w < ga.pop_size := by
    intro w hw
    unfold GeneticAlgorithm.tournament_selection at hw
    obtain ⟨t, ht, rfl⟩ := List.mem_map.mp hw
    rw [List.mem_range] at ht
    obtain ⟨hlen, _, hbd⟩ := hdraw t ht
    refine tournamentWinner_lt fitnesses (draws t) ga.pop_size ?_ hbd
    intro hnil
    rw [hnil] at hlen
    simp at hlen
    omega
  refine ⟨hbound, ?_, ?_⟩
  · intro t ht
    obtain ⟨hlen, _, _⟩ := hdraw t ht
    have hnil : draws t ≠ [] := by
      intro hnil
      rw [hnil] at hlen
      simp at hlen
      omega
    have hmlt : argmaxIdx ((draws t).map fun j => fitnesses.getD j 0) <
        (draws t).length := by
      have := argmaxIdx_lt_length ((draws t).map fun j => fitnesses.getD j 0)
        (by simpa using hnil)
      simpa using this
    refine ⟨argmaxIdx ((draws t).map fun j => fitnesses.getD j 0), hmlt, ?_, ?_, ?_⟩
    · unfold GeneticAlgorithm.tournament_selection
      rw [getD_map_range _ _ _ _ ht]
      rfl
    · intro r hr
      have := tournamentWinner_fitness_ge fitnesses (draws t) r hr
      exact this
    · intro r hr
      have h1 := getD_lt_of_lt_argmaxIdx ((draws t).map fun j => fitnesses.getD j 0) r hr
      rw [getD_map_fitness fitnesses (draws t) r (lt_trans hr hmlt)] at h1
      rw [getD_map_fitness fitnesses (draws t) _ hmlt] at h1
      exact h1
  · intro htp b hb hbest w hw
    unfold GeneticAlgorithm.tournament_selection at hw
    obtain ⟨t, ht, rfl⟩ := List.mem_map.mp hw
    rw [List.mem_range] at ht
    obtain ⟨hlen, hnd, hbd⟩ := hdraw t ht
    have hmem : b ∈ draws t :=
      mem_of_nodup_length_bound (draws t) ga.pop_size (by omega) hnd hbd b hb
    obtain ⟨⟨r, hr⟩, hcsr⟩ := List.mem_iff_get.mp hmem
    have hble : fitnesses.getD b 0 ≤
        fitnesses.getD (GeneticAlgorithm.tournamentWinner fitnesses (draws t)) 0 := by
      have hge := tournamentWinner_fitness_ge fitnesses (draws t) r hr
      rw [getD_eq_getElem_of_lt (draws t) 0 r hr] at hge
      have hgetb : (draws t)[r] = b := by
        simpa using hcsr
      rw [hgetb] at hge
      exact hge
    by_contra hne
    have hwlt : GeneticAlgorithm.tournamentWinner fitnesses (draws t) < ga.pop_size :=
      tournamentWinner_lt fitnesses (draws t) ga.pop_size (by
        intro hnil
        rw [hnil] at hlen
        simp at hlen
        omega) hbd
    exact absurd (hbest _ hwlt hne) (not_lt.mpr hble)

/-- C6 witness: the theorem applied at `pop_size = tournament_size = 2`
with fitness vector `[0, 1]` (unique maximum at index 1) and the
full-population draw `[0, 1]` every round. -/
theorem tournament_selection_spec_witness :
    (∀ w ∈ gaPairTourney.tournament_selection [0, 1] (fun _ => [0, 1]),
      w < gaPairTourney.pop_size) ∧
    (∀ t < gaPairTourney.pop_size, ∃ m < ([0, 1] : List Nat).length,
      (gaPairTourney.tournament_selection [0, 1] (fun _ => [0, 1])).getD t 0 =
        ([0, 1] : List Nat).getD m 0 ∧
      (∀ r < ([0, 1] : List Nat).length,
        [(0 : ℚ), 1].getD (([0, 1] : List Nat).getD r 0) 0 ≤
          [(0 : ℚ), 1].getD (([0, 1] : List Nat).getD m 0) 0) ∧
      ∀ r < m,
        [(0 : ℚ), 1].getD (([0, 1] : List Nat).getD r 0) 0 <
          [(0 : ℚ), 1].getD (([0, 1] : List Nat).getD m 0) 0) ∧
    (gaPairTourney.tournament_size = gaPairTourney.pop_size →
      ∀ b < gaPairTourney.pop_size,
        (∀ j < gaPairTourney.pop_size, j ≠ b →
          [(0 : ℚ), 1].getD j 0 < [(0 : ℚ), 1].getD b 0) →
        ∀ w ∈ gaPairTourney.tournament_selection [0, 1] (fun _ => [0, 1]), w = b) :=
  tournament_selection_spec gaPairTourney [0, 1] (fun _ => [0, 1]) (by decide)
    (by decide) (by decide)

/-! ## Genome codec lemmas -/

theorem getD_map {α β : Type} (f : α → β) (l : List α) (dβ : β) (dα : α) (k : Nat)
    (h : k < l.length) : (l.map f).getD k dβ = f (l.getD k dα) := by
  rw [List.getD_eq_getElem?_getD, List.getElem?_map, List.getElem?_eq_getElem h,
    List.getD_eq_getElem?_getD, List.getElem?_eq_getElem h]
  rfl

theorem getD_drop {α : Type} (l : List α) (n m : Nat) (d : α) :
    (l.drop n).getD m d = l.getD (n + m) d := by
  rw [List.getD_eq_getElem?_getD, List.getD_eq_getElem?_getD, List.getElem?_drop]

theorem zip_map_fst_snd {α β : Type} : ∀ dl : List (α × β),
    (dl.map Prod.fst).zip (dl.map Prod.snd) = dl := by
  intro dl
  induction dl with
  | nil => rfl
  | cons a l ih => simp [ih]

namespace FeedForwardNet

theorem decodeLayer_fst_length (i o : Nat) (g : List ℚ) :
    ((decodeLayer i o g).1).length = i := by
  simp [decodeLayer]

theorem decodeLayer_row_length (i o : Nat) (g : List ℚ) (h : i * o + o ≤ g.length) :
    ∀ row ∈ (decodeLayer i o g).1, row.length = o := by
  intro row hrow
  simp only [decodeLayer, List.mem_map, List.mem_range] at hrow
  obtain ⟨r, hr, rfl⟩ := hrow
  rw [List.length_take, List.length_drop, List.length_take]
  have h2 : o + r * o ≤ i * o := by
    have h3 : (r + 1) * o ≤ i * o := Nat.mul_le_mul_right o (Nat.succ_le_of_lt hr)
    calc o + r * o = (r + 1) * o := by ring
    _ ≤ i * o := h3
  omega

theorem decodeLayer_snd_length (i o : Nat) (g : List ℚ) (h : i * o + o ≤ g.length) :
    ((decodeLayer i o g).2).length = o := by
  simp only [decodeLayer, List.length_take, List.length_drop]
  omega

theorem decodeLayers_length : ∀ (shs : List (Nat × Nat)) (g : List ℚ),
    (decodeLayers shs g).length = shs.length := by
  intro shs
  induction shs with
  | nil => intro g; rfl
  | cons p rest ih =>
    intro g
    obtain ⟨i, o⟩ := p
    simp [decodeLayers, ih]

theorem decodeLayers_shape : ∀ (shs : List (Nat × Nat)) (g : List ℚ),
    (shs.map fun p => p.1 * p.2 + p.2).sum ≤ g.length → ∀ k, k < shs.length →
      ((decodeLayers shs g).getD k ([], [])).1.length = (shs.getD k (0, 0)).1 ∧
      (∀ row ∈ ((decodeLayers shs g).getD k ([], [])).1,
        row.length = (shs.getD k (0, 0)).2) ∧
      ((decodeLayers shs g).getD k ([], [])).2.length = (shs.getD k (0, 0)).2 := by
  intro shs
  induction shs with
  | nil =>
    intro g h k hk
    simp at hk
  | cons p rest ih =>
    intro g h k hk
    obtain ⟨i, o⟩ := p
    simp only [List.map_cons, List.sum_cons] at h
    cases k with
    | zero =>
      simp only [decodeLayers, List.getD_cons_zero]
      exact ⟨decodeLayer_fst_length i o g, decodeLayer_row_length i o g (by omega),
        decodeLayer_snd_length i o g (by omega)⟩
    | succ k =>
      simp only [decodeLayers, List.getD_cons_succ]
      exact ih (g.drop (i * o + o)) (by rw [List.length_drop]; omega) k
        (by simpa using hk)

/-- Reassembling the row-major rows of a slice of length `i * o`
recovers the slice. -/
theorem join_rows : ∀ (i o : Nat) (l : List ℚ), l.length = i * o →
    ((List.range i).map fun r => (l.drop (r * o)).take o).flatten = l := by
  intro i
  induction i with
  | zero =>
    intro o l h
    simp only [Nat.zero_mul] at h
    simp [List.length_eq_zero.mp h]
  | succ i ih =>
    intro o l h
    rw [List.range_succ_eq_map]
    simp only [List.map_cons, List.map_map, List.flatten_cons, Nat.zero_mul,
      List.drop_zero]
    have hmap : (List.range i).map ((fun r => (l.drop (r * o)).take o) ∘ Nat.succ) =
        (List.range i).map fun r => ((l.drop o).drop (r * o)).take o := by
      apply List.map_congr_left
      intro r _
      simp only [Function.comp]
      rw [List.drop_drop]
      have harith : Nat.succ r * o = o + r * o := by rw [Nat.succ_mul]; omega
      rw [harith]
    rw [hmap, ih o (l.drop o) (by rw [List.length_drop, h, Nat.succ_mul]; omega)]
    exact List.take_append_drop o l

/-- Re-flattening the decoded layers in order recovers the genome. -/
theorem flattenParams_decodeLayers : ∀ (shs : List (Nat × Nat)) (g : List ℚ),
    (shs.map fun p => p.1 * p.2 + p.2).sum = g.length →
    flattenParams (decodeLayers shs g) = g := by
  intro shs
  induction shs with
  | nil =>
    intro g h
    simp only [List.map_nil, List.sum_nil] at h
    simp [flattenParams, decodeLayers, List.length_eq_zero.mp h.symm]
  | cons p rest ih =>
    intro g h
    obtain ⟨i, o⟩ := p
    simp only [List.map_cons, List.sum_cons] at h
    have hW : ((decodeLayer i o g).1).flatten = g.take (i * o) := by
      simp only [decodeLayer]
      exact join_rows i o (g.take (i * o)) (by rw [List.length_take]; omega)
    have hrest : flattenParams (decodeLayers rest (g.drop (i * o + o))) =
        g.drop (i * o + o) := ih _ (by rw [List.length_drop]; omega)
    simp only [decodeLayers, flattenParams, List.map_cons, List.flatten_cons] at hrest ⊢
    rw [hW]
    show g.take (i * o) ++ (decodeLayer i o g).2 ++ _ = g
    rw [hrest, List.append_assoc]
    have hb : (decodeLayer i o g).2 ++ g.drop (i * o + o) = g.drop (i * o) := by
      simp only [decodeLayer]
      have : g.drop (i * o + o) = (g.drop (i * o)).drop o := by
        rw [List.drop_drop]
      rw [this]
      exact List.take_append_drop o (g.drop (i * o))
    rw [hb]
    exact List.take_append_drop (i * o) g

/-- Row-major placement: entry `(r, c)` of layer `k`'s weight matrix is
genome entry `offset_k + r * out_k + c`. -/
theorem decodeLayers_entry : ∀ (shs : List (Nat × Nat)) (g : List ℚ),
    (shs.map fun p => p.1 * p.2 + p.2).sum ≤ g.length →
    ∀ k, k < shs.length → ∀ r c, r < (shs.getD k (0, 0)).1 →
      c < (shs.getD k (0, 0)).2 →
      (((decodeLayers shs g).getD k ([], [])).1.getD r []).getD c 0 =
        g.getD (((shs.take k).map fun p => p.1 * p.2 + p.2).sum +
          r * (shs.getD k (0, 0)).2 + c) 0 := by
  intro shs
  induction shs with
  | nil =>
    intro g h k hk
    simp at hk
  | cons p rest ih =>
    intro g h k hk r c hr hc
    obtain ⟨i, o⟩ := p
    simp only [List.map_cons, List.sum_cons] at h
    cases k with
    | zero =>
      simp only [List.getD_cons_zero] at hr hc
      simp only [decodeLayers, List.getD_cons_zero, List.take_zero, List.map_nil,
        List.sum_nil, Nat.zero_add]
      simp only [decodeLayer]
      rw [getD_map_range _ i r [] hr]
      have hco : r * o + c < i * o := by
        have h3 : (r + 1) * o ≤ i * o := Nat.mul_le_mul_right o (Nat.succ_le_of_lt hr)
        calc r * o + c < r * o + o := by omega
        _ = (r + 1) * o := by ring
        _ ≤ i * o := h3
      rw [List.getD_eq_getElem?_getD, List.getD_eq_getElem?_getD,
        List.getElem?_take_of_lt hc, List.getElem?_drop,
        List.getElem?_take_of_lt (show r * o + c < i * o from hco)]
    | succ k =>
      simp only [List.getD_cons_succ] at hr hc
      simp only [decodeLayers, List.getD_cons_succ, List.take_succ_cons,
        List.map_cons, List.sum_cons]
      rw [ih (g.drop (i * o + o)) (by rw [List.length_drop]; omega) k
        (by simpa using hk) r c hr hc]
      rw [getD_drop]
      congr 1
      omega

/-- C9 (confirmed).  `decode` fails with `ShapeMismatch` exactly when
the genome's length differs from the topology-derived
`L = Σ (in_i * out_i + out_i)`, and succeeds on a genome of length
exactly `L`, populating one weight matrix of `in_i` rows of `out_i`
entries and one bias vector of `out_i` entries per layer transition. -/
theorem decode_shape_check (layer_sizes : List Nat) (genome : List ℚ) :
    (genome.length ≠ num_weights layer_sizes →
      decode layer_sizes genome = .error .shapeMismatch) ∧
    (genome.length = num_weights layer_sizes →
      ∃ W B, decode layer_sizes genome = .ok (W, B) ∧
        W.length = (shapes layer_sizes).length ∧
        B.length = (shapes layer_sizes).length ∧
        ∀ k, k < (shapes layer_sizes).length →
          (W.getD k []).length = ((shapes layer_sizes).getD k (0, 0)).1 ∧
          (∀ row ∈ W.getD k [],
            row.length = ((shapes layer_sizes).getD k (0, 0)).2) ∧
          (B.getD k []).length = ((shapes layer_sizes).getD k (0, 0)).2) := by
  constructor
  · intro h
    simp [decode, h]
  · intro h
    refine ⟨(decodeLayers (shapes layer_sizes) genome).map Prod.fst,
      (decodeLayers (shapes layer_sizes) genome).map Prod.snd, ?_, ?_, ?_, ?_⟩
    · simp [decode, h]
    · rw [List.length_map, decodeLayers_length]
    · rw [List.length_map, decodeLayers_length]
    · intro k hk
      have hklen : k < (decodeLayers (shapes layer_sizes) genome).length := by
        rw [decodeLayers_length]
        exact hk
      rw [getD_map Prod.fst _ [] ([], []) k hklen,
        getD_map Prod.snd _ [] ([], []) k hklen]
      exact decodeLayers_shape (shapes layer_sizes) genome
        (le_of_eq (by rw [h]; rfl)) k hk

/-- C9 witness: the theorem applied at topology `[1, 2]`
(`L = 1*2 + 2 = 4`): a genome of length 1 is rejected with
`ShapeMismatch`, and a genome of length 4 decodes with the stated
shapes. -/
theorem decode_shape_check_witness :
    FeedForwardNet.decode [1, 2] [(5 : ℚ)] = .error .shapeMismatch ∧
    ∃ W B, FeedForwardNet.decode [1, 2] [(1 : ℚ), 2, 3, 4] = .ok (W, B) ∧
      W.length = (shapes [1, 2]).length ∧
      B.length = (shapes [1, 2]).length ∧
      ∀ k, k < (shapes [1, 2]).length →
        (W.getD k []).length = ((shapes [1, 2]).getD k (0, 0)).1 ∧
        (∀ row ∈ W.getD k [], row.length = ((shapes [1, 2]).getD k (0, 0)).2) ∧
        (B.getD k []).length = ((shapes [1, 2]).getD k (0, 0)).2 :=
  ⟨(decode_shape_check [1, 2] [(5 : ℚ)]).1 (by decide),
   (decode_shape_check [1, 2] [(1 : ℚ), 2, 3, 4]).2 (by decide)⟩

/-- C4 (confirmed).  For every topology and every genome of the matching
length `L`, decoding succeeds, re-flattening the decoded weight rows and
biases in layer order reproduces the genome exactly (the layer slices
tile the genome with no gaps or overlaps), and entry `(r, c)` of layer
`k`'s weight matrix sits at offset `r * out_k + c` of that layer's
genome slice (row-major placement). -/
theorem decode_roundtrip (layer_sizes : List Nat) (genome : List ℚ)
    (h : genome.length = num_weights layer_sizes) :
    ∃ W B, decode layer_sizes genome = .ok (W, B) ∧
      flattenParams (W.zip B) = genome ∧
      ∀ k, k < (shapes layer_sizes).length → ∀ r c,
        r < ((shapes layer_sizes).getD k (0, 0)).1 →
        c < ((shapes layer_sizes).getD k (0, 0)).2 →
        ((W.getD k []).getD r []).getD c 0 =
          genome.getD
            ((((shapes layer_sizes).take k).map fun p => p.1 * p.2 + p.2).sum +
              r * ((shapes layer_sizes).getD k (0, 0)).2 + c) 0 := by
  refine ⟨(decodeLayers (shapes layer_sizes) genome).map Prod.fst,
    (decodeLayers (shapes layer_sizes) genome).map Prod.snd, ?_, ?_, ?_⟩
  · simp [decode, h]
  · rw [zip_map_fst_snd]
    exact flattenParams_decodeLayers (shapes layer_sizes) genome (by rw [h]; rfl)
  · intro k hk r c hr hc
    have hklen : k < (decodeLayers (shapes layer_sizes) genome).length := by
      rw [decodeLayers_length]
      exact hk
    rw [getD_map Prod.fst _ [] ([], []) k hklen]
    exact decodeLayers_entry (shapes layer_sizes) genome
      (le_of_eq (by rw [h]; rfl)) k hk r c hr hc

/-- C4 witness: the round-trip theorem applied at topology `[2, 2]`
(`L = 2*2 + 2 = 6`) and genome `[1, 2, 3, 4, 5, 6]`. -/
theorem decode_roundtrip_witness :
    ∃ W B, FeedForwardNet.decode [2, 2] [(1 : ℚ), 2, 3, 4, 5, 6] = .ok (W, B) ∧
      flattenParams (W.zip B) = [(1 : ℚ), 2, 3, 4, 5, 6] ∧
      ∀ k, k < (shapes [2, 2]).length → ∀ r c,
        r < ((shapes [2, 2]).getD k (0, 0)).1 →
        c < ((shapes [2, 2]).getD k (0, 0)).2 →
        ((W.getD k []).getD r []).getD c 0 =
          [(1 : ℚ), 2, 3, 4, 5, 6].getD
            ((((shapes [2, 2]).take k).map fun p => p.1 * p.2 + p.2).sum +
              r * ((shapes [2, 2]).getD k (0, 0)).2 + c) 0 :=
  decode_roundtrip [2, 2] [(1 : ℚ), 2, 3, 4, 5, 6] (by decide)

/-- The source's slice-and-fold forward pass (`zip(weights[:-1],
biases[:-1])` then the affine output layer) agrees with the spec's
layer-list recursion. -/
theorem forwardSpec_eq_fold (φ : ℚ → ℚ) :
    ∀ (W : List (List (List ℚ))) (B : List (List ℚ)), W.length = B.length →
      W ≠ [] → ∀ x : List ℚ,
      forwardSpec φ (W.zip B) x =
        affine ((W.dropLast.zip B.dropLast).foldl
            (fun x p => (affine x p.1 p.2).map φ) x)
          (W.getLastD []) (B.getLastD []) := by
  intro W
  induction W with
  | nil => intro B h hne x; exact absurd rfl hne
  | cons W0 Ws ih =>
    intro B h hne x
    cases B with
    | nil => simp at h
    | cons b0 Bs =>
      cases Ws with
      | nil =>
        have hBs : Bs = [] := by
          cases Bs with
          | nil => rfl
          | cons c cs =>
            simp only [List.length_cons, List.length_nil] at h
            omega
        subst hBs
        simp [forwardSpec]
      | cons W1 Ws' =>
        cases Bs with
        | nil => simp at h
        | cons b1 Bs' =>
          have h' : (W1 :: Ws').length = (b1 :: Bs').length := by
            simp only [List.length_cons] at h ⊢
            omega
          have ihh := ih (b1 :: Bs') h' (by simp) ((affine x W0 b0).map φ)
          simp only [List.zip_cons_cons, forwardSpec, List.dropLast_cons₂,
            List.foldl_cons, List.getLastD_cons]
          simp only [List.zip_cons_cons, List.getLastD_cons] at ihh
          exact ihh

/-- C7 (confirmed).  With decoded parameters (`weights`/`biases`
non-empty, equal layer counts) and the elementwise activation
abstracted as `φ`, `act` computes the spec's forward pass — `φ` applied
after the affine transform on every layer except the last, the last
layer affine only — and returns the raw logits vector in continuous
mode; in discrete mode (on a non-empty logits vector, where numpy's
`argmax` is defined) it returns the index of the maximum logit, ties
broken by the lowest index. -/
theorem act_spec (φ : ℚ → ℚ) (weights : List (List (List ℚ)))
    (biases : List (List ℚ)) (obs : List ℚ)
    (hlen : weights.length = biases.length) (hne : weights ≠ []) :
    (act φ weights biases obs false =
      .ok (.logits (forwardSpec φ (weights.zip biases) obs))) ∧
    (forwardSpec φ (weights.zip biases) obs ≠ [] →
      ∃ j, act φ weights biases obs true = .ok (.action j) ∧
        j < (forwardSpec φ (weights.zip biases) obs).length ∧
        (∀ k < (forwardSpec φ (weights.zip biases) obs).length,
          (forwardSpec φ (weights.zip biases) obs).getD k 0 ≤
            (forwardSpec φ (weights.zip biases) obs).getD j 0) ∧
        ∀ k < j, (forwardSpec φ (weights.zip biases) obs).getD k 0 <
          (forwardSpec φ (weights.zip biases) obs).getD j 0) := by
  have hbne : biases ≠ [] := by
    intro hb
    rw [hb] at hlen
    simp only [List.length_nil] at hlen
    exact hne (List.length_eq_zero.mp hlen)
  have hguard : ¬(weights = [] ∨ biases = []) := by
    simp [hne, hbne]
  have hfold := forwardSpec_eq_fold φ weights biases hlen hne obs
  constructor
  · simp only [act, if_neg hguard, Bool.false_eq_true, if_false, ite_false]
    rw [hfold]
  · intro hlog
    have hlogne : affine ((weights.dropLast.zip biases.dropLast).foldl
        (fun x p => (affine x p.1 p.2).map φ) obs) (weights.getLastD [])
        (biases.getLastD []) ≠ [] := by
      rw [← hfold]
      exact hlog
    have hempty : (affine ((weights.dropLast.zip biases.dropLast).foldl
        (fun x p => (affine x p.1 p.2).map φ) obs) (weights.getLastD [])
        (biases.getLastD [])).isEmpty = false := by
      rw [List.isEmpty_eq_false]
      exact hlogne
    refine ⟨argmaxIdx (forwardSpec φ (weights.zip biases) obs), ?_, ?_, ?_, ?_⟩
    · simp only [act, if_neg hguard, if_true, ite_true, hempty, Bool.false_eq_true,
        if_false, ite_false]
      rw [hfold]
    · exact argmaxIdx_lt_length _ hlog
    · intro k hk
      exact getD_le_argmaxIdx _ k hk
    · intro k hk
      exact getD_lt_of_lt_argmaxIdx _ k hk

/-- C7 witness: the theorem applied to a two-layer net over the identity
activation, with weights `[[1]], [[2]]`, biases `[0], [1]` and
observation `[3]`. -/
theorem act_spec_witness :
    (act (fun q => q) [[[1]], [[2]]] [[0], [1]] [3] false =
      .ok (.logits (forwardSpec (fun q => q)
        (([[[1]], [[2]]] : List (List (List ℚ))).zip [[0], [1]]) [3]))) ∧
    (forwardSpec (fun q => q) (([[[1]], [[2]]] : List (List (List ℚ))).zip
        [[0], [1]]) [3] ≠ [] →
      ∃ j, act (fun q => q) [[[1]], [[2]]] [[0], [1]] [3] true = .ok (.action j) ∧
        j < (forwardSpec (fun q => q) (([[[1]], [[2]]] : List (List (List ℚ))).zip
          [[0], [1]]) [3]).length ∧
        (∀ k < (forwardSpec (fun q => q) (([[[1]], [[2]]] : List (List (List ℚ))).zip
            [[0], [1]]) [3]).length,
          (forwardSpec (fun q => q) (([[[1]], [[2]]] : List (List (List ℚ))).zip
            [[0], [1]]) [3]).getD k 0 ≤
          (forwardSpec (fun q => q) (([[[1]], [[2]]] : List (List (List ℚ))).zip
            [[0], [1]]) [3]).getD j 0) ∧
        ∀ k < j, (forwardSpec (fun q => q) (([[[1]], [[2]]] : List (List (List ℚ))).zip
            [[0], [1]]) [3]).getD k 0 <
          (forwardSpec (fun q => q) (([[[1]], [[2]]] : List (List (List ℚ))).zip
            [[0], [1]]) [3]).getD j 0) :=
  act_spec (fun q => q) [[[1]], [[2]]] [[0], [1]] [3] (by decide) (by decide)

end FeedForwardNet

/-- C10 (confirmed).  `evaluate` divides the accumulated total reward by
the episode count with no guard: with `episodes = 0` the loop body never
runs and the division raises `ZeroDivisionError`; for every
`episodes ≥ 1` it returns the arithmetic mean of the per-episode
returns — the unique `q` with `q * episodes = Σ returns`. -/
theorem evaluate_division_guard (epRewards : Nat → List ℚ) :
    (EnvRunner.evaluate epRewards 0 = .error .zeroDivision) ∧
    ∀ episodes : Nat, 1 ≤ episodes →
      ∃ q : ℚ, EnvRunner.evaluate epRewards episodes = .ok q ∧
        q * (episodes : ℚ) =
          ((List.range episodes).map fun ep => (epRewards ep).sum).sum := by
  constructor
  · rfl
  · intro n hn
    have hn0 : n ≠ 0 := by omega
    refine ⟨(((List.range n).map fun ep => (epRewards ep).sum).sum) / (n : ℚ),
      ?_, ?_⟩
    · simp [EnvRunner.evaluate, hn0]
    · exact div_mul_cancel₀ _ (by exact_mod_cast hn0)

/-- C10 witness: the theorem applied to an environment trace with
episode returns `3` and `5`, at `episodes = 0` and `episodes = 2`. -/
theorem evaluate_division_guard_witness :
    (EnvRunner.evaluate (fun ep => if ep = 0 then [1, 2] else [5]) 0 =
      .error .zeroDivision) ∧
    ∃ q : ℚ, EnvRunner.evaluate (fun ep => if ep = 0 then [1, 2] else [5]) 2 =
        .ok q ∧
      q * (2 : ℚ) = ((List.range 2).map fun ep =>
        ((fun ep => if ep = 0 then [(1 : ℚ), 2] else [5]) ep).sum).sum :=
  ⟨(evaluate_division_guard (fun ep => if ep = 0 then [1, 2] else [5])).1,
   (evaluate_division_guard (fun ep => if ep = 0 then [1, 2] else [5])).2 2
     (by decide)⟩

/-! ## Frame lemmas for the store-level `step` -/

namespace GeneticAlgorithm

theorem store_getD_append (s ext : Store) (i : Nat) (hi : i < s.length) :
    (s ++ ext).getD i [] = s.getD i [] := by
  simp [List.getD_eq_getElem?_getD, List.getElem?_append_left hi]

theorem mutateStore_length (ga : GeneticAlgorithm) (u noise : Nat → ℚ) (s : Store)
    (id : Nat) : (ga.mutateStore u noise s id).length = s.length := by
  simp [GeneticAlgorithm.mutateStore]

theorem mutateStore_getD_ne (ga : GeneticAlgorithm) (u noise : Nat → ℚ) (s : Store)
    (id i : Nat) (h : id ≠ i) :
    (ga.mutateStore u noise s id).getD i [] = s.getD i [] := by
  unfold GeneticAlgorithm.mutateStore
  simp [List.getD_eq_getElem?_getD, List.getElem?_set_ne h]

/-- The child-generation loop only ever writes to rows it allocated
itself: every pre-existing store cell is left exactly as it was. -/
theorem genChildrenStore_preserves (ga : GeneticAlgorithm)
    (tape : GeneticAlgorithm.StepTape) (parents popIds : List Nat) :
    ∀ (K : Nat) (s : Store),
      s.length ≤ (ga.genChildrenStore tape parents popIds K s).1.length ∧
      ∀ i < s.length,
        ((ga.genChildrenStore tape parents popIds K s).1).getD i [] =
          s.getD i [] := by
  intro K
  induction K with
  | zero => exact fun s => ⟨le_refl _, fun i _ => rfl⟩
  | succ K ih =>
    intro s
    obtain ⟨ihlen, ihpres⟩ := ih s
    rcases hgc : ga.genChildrenStore tape parents popIds K s with ⟨s₁, r⟩
    rw [hgc] at ihlen ihpres
    simp only at ihlen ihpres
    cases r with
    | error e =>
      constructor
      · simp only [genChildrenStore, hgc]
        exact ihlen
      · intro i hi
        simp only [genChildrenStore, hgc]
        exact ihpres i hi
    | ok prev =>
      cases hp1 : parents[2 * K]? with
      | none =>
        constructor
        · simp only [genChildrenStore, hgc, hp1]
          exact ihlen
        · intro i hi
          simp only [genChildrenStore, hgc, hp1]
          exact ihpres i hi
      | some idx1 =>
        cases hp2 : parents[2 * K + 1]? with
        | none =>
          constructor
          · simp only [genChildrenStore, hgc, hp1, hp2]
            exact ihlen
          · intro i hi
            simp only [genChildrenStore, hgc, hp1, hp2]
            exact ihpres i hi
        | some idx2 =>
          have hlen2 : ∀ v1 v2 : List ℚ, (s₁ ++ [v1, v2]).length = s₁.length + 2 := by
            intro v1 v2
            simp
          constructor
          · simp only [genChildrenStore, hgc, hp1, hp2, crossoverStore]
            rw [mutateStore_length, mutateStore_length, hlen2]
            omega
          · intro i hi
            have hi1 : i < s₁.length := by omega
            simp only [genChildrenStore, hgc, hp1, hp2, crossoverStore]
            rw [mutateStore_getD_ne _ _ _ _ _ _ (by omega),
              mutateStore_getD_ne _ _ _ _ _ _ (by omega),
              store_getD_append _ _ _ hi1]
            exact ihpres i hi

/-- The whole store-level `step` preserves every pre-existing cell: the
final heap (also at exception time) agrees with the initial heap on all
cells allocated before the call. -/
theorem stepStore_preserves (ga : GeneticAlgorithm)
    (tape : GeneticAlgorithm.StepTape) (s : Store) (popIds : List Nat)
    (fitId : Nat) : ∀ i < s.length,
      ((ga.stepStore tape s popIds fitId).1).getD i [] = s.getD i [] := by
  intro i hi
  obtain ⟨hlen, hpres⟩ := genChildrenStore_preserves ga tape
    (ga.tournament_selection (s.getD fitId []) tape.draws) popIds
    (numPairs (ga.pop_size -
      (ga.elites (popIds.map fun j => s.getD j []) (s.getD fitId [])).length)) s
  rcases hgc : ga.genChildrenStore tape
    (ga.tournament_selection (s.getD fitId []) tape.draws) popIds
    (numPairs (ga.pop_size -
      (ga.elites (popIds.map fun j => s.getD j []) (s.getD fitId [])).length)) s
    with ⟨s₁, r⟩
  rw [hgc] at hlen hpres
  simp only at hlen hpres
  cases r with
  | error e =>
    simp only [stepStore, hgc]
    exact hpres i hi
  | ok kidIds =>
    simp only [stepStore, hgc]
    split
    · split
      · exact hpres i hi
      · rw [store_getD_append _ _ _ (by omega)]
        exact hpres i hi
    · rw [store_getD_append _ _ _ (by omega)]
      exact hpres i hi

end GeneticAlgorithm

/-- C8 (confirmed).  In the store-level model — numpy rows as numbered
heap cells, `crossover` allocating its children fresh, `mutate` writing
its argument in place — `step` leaves every row of the input population
and the fitness vector's cell holding exactly the value it held before
the call, whether it returns a new population or raises. -/
theorem step_preserves_inputs (ga : GeneticAlgorithm)
    (tape : GeneticAlgorithm.StepTape) (s : Store) (popIds : List Nat)
    (fitId : Nat) :
    (∀ id ∈ popIds, id < s.length →
      ((ga.stepStore tape s popIds fitId).1).getD id [] = s.getD id []) ∧
    (fitId < s.length →
      ((ga.stepStore tape s popIds fitId).1).getD fitId [] = s.getD fitId []) :=
  ⟨fun id _ h => GeneticAlgorithm.stepStore_preserves ga tape s popIds fitId id h,
   fun h => GeneticAlgorithm.stepStore_preserves ga tape s popIds fitId fitId h⟩

/-- C8 witness: the theorem applied to a three-cell store (two
population rows and a fitness cell) under the even no-elitism
configuration. -/
theorem step_preserves_inputs_witness :
    (∀ id ∈ [0, 1], id < ([[1], [2], [9, 9]] : Store).length →
      ((gaEvenNoElit.stepStore tapeConst [[1], [2], [9, 9]] [0, 1] 2).1).getD id [] =
        ([[1], [2], [9, 9]] : Store).getD id []) ∧
    ((2 : Nat) < ([[1], [2], [9, 9]] : Store).length →
      ((gaEvenNoElit.stepStore tapeConst [[1], [2], [9, 9]] [0, 1] 2).1).getD 2 [] =
        ([[1], [2], [9, 9]] : Store).getD 2 []) :=
  step_preserves_inputs gaEvenNoElit tapeConst [[1], [2], [9, 9]] [0, 1] 2

end RLGym
